import Mathlib

/-!
Verification of the basis_set_exchange core: data model, structural
validator, composition-time element filtering, and the five contraction
manipulation transforms.

Numeric values (exponents, contraction coefficients) are modelled as exact
rationals: the code under study performs no arithmetic on them, only
equality tests, zero tests and order comparisons, all of which are exact
on the floating-point values and are represented faithfully by the
corresponding rationals.
-/

namespace BSE

/-- An electron shell: angular momentum list, primitive exponents, and
contraction coefficient rows (from the component JSON data model). -/
structure Shell where
  shell_angular_momentum : List ℕ
  shell_exponents : List ℚ
  shell_coefficients : List (List ℚ)
deriving DecidableEq, Repr

/-- An ECP potential block: structurally similar to a shell with an extra
radial-power channel; the manipulation engine treats these as opaque. -/
structure EcpPotential where
  potential_angular_momentum : List ℕ
  potential_r_exponents : List ℕ
  potential_gaussian_exponents : List ℚ
  potential_coefficients : List (List ℚ)
deriving DecidableEq, Repr

/-- Per-element basis data.  `element_electron_shells` is optional because
the validator and the transforms both skip elements that carry no
`element_electron_shells` key. -/
structure ElementBasis where
  element_electron_shells : Option (List Shell)
  element_ecp_potentials : Option (List EcpPotential)
  element_ecp_electrons : Option ℕ
deriving DecidableEq, Repr

/-- The canonical basis-set object: identifying metadata plus the mapping
from element identifier (atomic number as a decimal string key, in
insertion order) to per-element data. -/
structure BasisSet where
  basis_set_name : String
  basis_set_description : String
  basis_set_role : String
  basis_set_family : String
  basis_set_version : String
  basis_set_revision_description : String
  basis_set_elements : List (String × ElementBasis)
deriving DecidableEq, Repr

/-! ## Validator (from src/basis_set_exchange/validator.py)

`_validate_extra_component` checks, per shell: `nprim > 0`, each
coefficient row has length `nprim`, and for combined angular momentum
(`nam > 1`) the number of rows equals `nam`.  The first failing check
raises; we model raising with `Except.error`. -/

/-- The inner `for g in s[shell_coefficients]` loop of
`_validate_extra_component`: raise on the first row whose length differs
from the number of primitives. -/
def checkRows (nprim : ℕ) : List (List ℚ) → Except String Unit
  | [] => Except.ok ()
  | g :: rest =>
    if nprim ≠ g.length then Except.error "coefficient count does not match primitive count"
    else checkRows nprim rest

/-- The per-shell body of `_validate_extra_component`. -/
def validateShell (s : Shell) : Except String Unit :=
  let nprim := s.shell_exponents.length
  if nprim ≤ 0 then Except.error "invalid number of primitives"
  else
    match checkRows nprim s.shell_coefficients with
    | Except.error e => Except.error e
    | Except.ok () =>
      let nam := s.shell_angular_momentum.length
      if 1 < nam then
        if s.shell_coefficients.length ≠ nam then
          Except.error "general contraction count does not match combined AM"
        else Except.ok ()
      else Except.ok ()

/-- The `for s in el[element_electron_shells]` loop. -/
def validateShells : List Shell → Except String Unit
  | [] => Except.ok ()
  | s :: rest =>
    match validateShell s with
    | Except.error e => Except.error e
    | Except.ok () => validateShells rest

/-- Per-element body: elements without `element_electron_shells` are
skipped (`continue`). -/
def validateElement (el : ElementBasis) : Except String Unit :=
  match el.element_electron_shells with
  | none => Except.ok ()
  | some shells => validateShells shells

/-- The `for el in bs_data[basis_set_elements].values()` loop of
`_validate_extra_component`. -/
def validate_extra_component : List (String × ElementBasis) → Except String Unit
  | [] => Except.ok ()
  | kv :: rest =>
    match validateElement kv.2 with
    | Except.error e => Except.error e
    | Except.ok () => validate_extra_component rest

/-- A shell violating one of the three structural invariants the validator
enforces: zero primitives, a row-length mismatch, or a combined-AM
row-count mismatch. -/
def badShell (s : Shell) : Prop :=
  s.shell_exponents.length = 0 ∨
  (∃ g ∈ s.shell_coefficients, g.length ≠ s.shell_exponents.length) ∨
  (1 < s.shell_angular_momentum.length ∧
    s.shell_coefficients.length ≠ s.shell_angular_momentum.length)

instance (s : Shell) : Decidable (badShell s) := by
  unfold badShell; infer_instance

lemma checkRows_ok_iff (nprim : ℕ) (rows : List (List ℚ)) :
    checkRows nprim rows = Except.ok () ↔ ∀ g ∈ rows, g.length = nprim := by
  induction rows with
  | nil => simp [checkRows]
  | cons g rest ih =>
    by_cases h : nprim ≠ g.length
    · rw [checkRows, if_pos h]
      constructor
      · intro hh; cases hh
      · intro hall
        exact absurd (hall g (by simp)).symm h
    · push_neg at h
      rw [checkRows, if_neg (not_not_intro h)]
      rw [ih]
      constructor
      · intro hall g' hg'
        rcases List.mem_cons.mp hg' with rfl | hm
        · exact h.symm
        · exact hall g' hm
      · intro hall g' hg'
        exact hall g' (List.mem_cons_of_mem _ hg')

lemma validateShell_ok_iff (s : Shell) :
    validateShell s = Except.ok () ↔ ¬ badShell s := by
  unfold validateShell badShell
  by_cases h0 : s.shell_exponents.length = 0
  · rw [if_pos (by omega)]
    simp [h0]
  · rw [if_neg (by omega)]
    rcases hc : checkRows s.shell_exponents.length s.shell_coefficients with e | u
    · have hbad : ¬ ∀ g ∈ s.shell_coefficients, g.length = s.shell_exponents.length := by
        intro hall
        rw [(checkRows_ok_iff _ _).mpr hall] at hc
        cases hc
      push_neg at hbad
      obtain ⟨g, hg, hglen⟩ := hbad
      constructor
      · intro hh; cases hh
      · intro hh
        exact absurd (Or.inr (Or.inl ⟨g, hg, hglen⟩)) hh
    · obtain ⟨⟩ := u
      have hrows : ∀ g ∈ s.shell_coefficients, g.length = s.shell_exponents.length :=
        (checkRows_ok_iff _ _).mp hc
      by_cases ham : 1 < s.shell_angular_momentum.length
      · by_cases hng : s.shell_coefficients.length ≠ s.shell_angular_momentum.length
        · rw [if_pos ham, if_pos hng]
          constructor
          · intro hh; cases hh
          · intro hh
            exact absurd (Or.inr (Or.inr ⟨ham, hng⟩)) hh
        · push_neg at hng
          rw [if_pos ham, if_neg (not_not_intro hng)]
          constructor
          · intro _ hh
            rcases hh with hh | hh | hh
            · exact h0 hh
            · obtain ⟨g, hg, hglen⟩ := hh; exact hglen (hrows g hg)
            · exact hh.2 hng
          · intro _; rfl
      · rw [if_neg ham]
        constructor
        · intro _ hh
          rcases hh with hh | hh | hh
          · exact h0 hh
          · obtain ⟨g, hg, hglen⟩ := hh; exact hglen (hrows g hg)
          · exact ham hh.1
        · intro _; rfl

lemma validateShells_ok_iff (shells : List Shell) :
    validateShells shells = Except.ok () ↔ ∀ s ∈ shells, ¬ badShell s := by
  induction shells with
  | nil => simp [validateShells]
  | cons s rest ih =>
    rcases hs : validateShell s with e | u
    · simp only [validateShells, hs]
      constructor
      · intro h; cases h
      · intro h
        exfalso
        have := (validateShell_ok_iff s).mpr (h s (by simp))
        rw [this] at hs; cases hs
    · obtain ⟨⟩ := u
      simp only [validateShells, hs, ih]
      constructor
      · intro h t ht
        rcases List.mem_cons.mp ht with rfl | ht'
        · exact (validateShell_ok_iff t).mp hs
        · exact h t ht'
      · intro h t ht
        exact h t (List.mem_cons_of_mem _ ht)

lemma validateElement_ok_iff (el : ElementBasis) :
    validateElement el = Except.ok () ↔
      ∀ shells, el.element_electron_shells = some shells → ∀ s ∈ shells, ¬ badShell s := by
  unfold validateElement
  rcases h : el.element_electron_shells with _ | shells
  · simp
  · simp [validateShells_ok_iff]

/-- C2: given component data that passes the JSON-schema check,
`validate_data` of a component record raises if and only if some shell has
zero primitives, a coefficient row of the wrong length, or a combined-AM
row-count mismatch; otherwise it returns normally (returning `Unit`, never
modifying the data). -/
theorem validate_extra_component_ok_iff (els : List (String × ElementBasis)) :
    validate_extra_component els = Except.ok () ↔
      ∀ kv ∈ els, ∀ shells, kv.2.element_electron_shells = some shells →
        ∀ s ∈ shells, ¬ badShell s := by
  induction els with
  | nil => simp [validate_extra_component]
  | cons kv rest ih =>
    rcases hk : validateElement kv.2 with e | u
    · simp only [validate_extra_component, hk]
      constructor
      · intro h; cases h
      · intro h
        exfalso
        have := (validateElement_ok_iff kv.2).mpr (h kv (by simp))
        rw [this] at hk; cases hk
    · obtain ⟨⟩ := u
      simp only [validate_extra_component, hk, ih]
      constructor
      · intro h kv' hkv'
        rcases List.mem_cons.mp hkv' with rfl | h'
        · exact (validateElement_ok_iff kv'.2).mp hk
        · exact h kv' h'
      · intro h kv' hkv'
        exact h kv' (List.mem_cons_of_mem _ hkv')

/-! ## Shared helpers for the manipulation engine -/

/-- Auxiliary loop for first-occurrence duplicate removal: `seen` holds the
values already emitted. -/
def firstDedupAux {α : Type} [DecidableEq α] (seen : List α) : List α → List α
  | [] => []
  | x :: rest =>
    if x ∈ seen then firstDedupAux seen rest
    else x :: firstDedupAux (x :: seen) rest

/-- Remove exact duplicates from a list keeping the first occurrence of each
value (Python `if x not in out: out.append(x)`). -/
def firstDedup {α : Type} [DecidableEq α] (l : List α) : List α := firstDedupAux [] l

lemma mem_firstDedupAux {α : Type} [DecidableEq α] {x : α} :
    ∀ {l seen : List α}, x ∈ firstDedupAux seen l ↔ x ∈ l ∧ x ∉ seen := by
  intro l
  induction l with
  | nil => intro seen; simp [firstDedupAux]
  | cons y rest ih =>
    intro seen
    by_cases hy : y ∈ seen
    · rw [firstDedupAux, if_pos hy, ih]
      constructor
      · rintro ⟨hr, hs⟩; exact ⟨List.mem_cons_of_mem _ hr, hs⟩
      · rintro ⟨hm, hs⟩
        rcases List.mem_cons.mp hm with rfl | hr
        · exact absurd hy hs
        · exact ⟨hr, hs⟩
    · rw [firstDedupAux, if_neg hy]
      by_cases hxy : x = y
      · subst hxy; simp [hy]
      · simp only [List.mem_cons, ih, not_or]
        tauto

lemma mem_firstDedup {α : Type} [DecidableEq α] {x : α} {l : List α} :
    x ∈ firstDedup l ↔ x ∈ l := by
  simp [firstDedup, mem_firstDedupAux]

lemma nodup_firstDedupAux {α : Type} [DecidableEq α] :
    ∀ (l seen : List α), (firstDedupAux seen l).Nodup := by
  intro l
  induction l with
  | nil => intro seen; simp [firstDedupAux]
  | cons y rest ih =>
    intro seen
    by_cases hy : y ∈ seen
    · rw [firstDedupAux, if_pos hy]; exact ih seen
    · rw [firstDedupAux, if_neg hy]
      refine List.nodup_cons.mpr ⟨?_, ih (y :: seen)⟩
      intro hc
      exact (mem_firstDedupAux.mp hc).2 (List.mem_cons_self y seen)

lemma nodup_firstDedup {α : Type} [DecidableEq α] (l : List α) :
    (firstDedup l).Nodup := nodup_firstDedupAux l []

/-- Modelled from the spec: the zero-coefficient filtering shared by the
uncontract transforms (`manip.py` is not under `src/`): keep only the
(exponent, coefficient) pairs whose coefficient is exactly nonzero. -/
def filterZero (exps row : List ℚ) : List ℚ × List ℚ :=
  let pairs := (exps.zip row).filter (fun p => decide (p.2 ≠ 0))
  (pairs.map Prod.fst, pairs.map Prod.snd)

/-- Apply a per-element shell-list transformation to every element of a
basis set, leaving the metadata, the element keys, the ECP blocks and
elements without electron shells untouched. -/
def mapShells (f : List Shell → List Shell) (b : BasisSet) : BasisSet :=
  { b with
    basis_set_elements := b.basis_set_elements.map (fun kv =>
      (kv.1, { kv.2 with
        element_electron_shells := kv.2.element_electron_shells.map f })) }

/-! ## The five transforms (Modelled from the spec: `manip.py` is not under
`src/`; each definition follows the spec's description of the transform.) -/

/-- Modelled from the spec: the per-shell step of `manip.uncontract_general`:
a single-AM shell with several coefficient rows is replaced by one
single-row shell per row, keeping only the pairs with nonzero coefficient;
single-row shells and combined-AM shells pass through unchanged. -/
def uncontract_general_shell (s : Shell) : List Shell :=
  if s.shell_angular_momentum.length ≠ 1 then [s]
  else if s.shell_coefficients.length = 1 then [s]
  else
    s.shell_coefficients.map (fun row =>
      { shell_angular_momentum := s.shell_angular_momentum,
        shell_exponents := (filterZero s.shell_exponents row).1,
        shell_coefficients := [(filterZero s.shell_exponents row).2] })

/-- Modelled from the spec: the per-element step of
`manip.uncontract_general`: generate all replacement shells, then remove
exact duplicates. -/
def uncontract_general_element (shells : List Shell) : List Shell :=
  firstDedup (shells.flatMap uncontract_general_shell)

/-- Modelled from the spec: `manip.uncontract_general`. -/
def uncontract_general (b : BasisSet) : BasisSet :=
  mapShells uncontract_general_element b

/-- Modelled from the spec: the per-shell step of `manip.uncontract_spdf`:
each AM-component row of a combined shell becomes its own single-AM
single-row shell with zero-coefficient pairs dropped; non-combined shells
pass through unchanged. -/
def uncontract_spdf_shell (s : Shell) : List Shell :=
  if s.shell_angular_momentum.length ≤ 1 then [s]
  else
    (s.shell_angular_momentum.zip s.shell_coefficients).map (fun p =>
      { shell_angular_momentum := [p.1],
        shell_exponents := (filterZero s.shell_exponents p.2).1,
        shell_coefficients := [(filterZero s.shell_exponents p.2).2] })

/-- Modelled from the spec: the per-element step of `manip.uncontract_spdf`
(duplicate removal applies per element as for uncontract_general). -/
def uncontract_spdf_element (shells : List Shell) : List Shell :=
  firstDedup (shells.flatMap uncontract_spdf_shell)

/-- Modelled from the spec: `manip.uncontract_spdf`. -/
def uncontract_spdf (b : BasisSet) : BasisSet :=
  mapShells uncontract_spdf_element b

/-- Modelled from the spec: whether primitive `j` of shell `s` is live for
AM-component index `i`: for a combined shell row `i` is the component's
row; for a single-AM shell a primitive contributes unless its coefficient
is zero in every row. -/
def primLive (s : Shell) (i j : ℕ) : Bool :=
  if 1 < s.shell_angular_momentum.length then
    decide ((s.shell_coefficients.getD i []).getD j 0 ≠ 0)
  else
    s.shell_coefficients.any (fun r => decide (r.getD j 0 ≠ 0))

/-- Modelled from the spec: the per-shell step of
`manip.uncontract_segmented`: every (AM-component, primitive) pair with a
live coefficient becomes its own single-primitive shell with coefficient
forced to 1.0. -/
def uncontract_segmented_shell (s : Shell) : List Shell :=
  (List.range s.shell_angular_momentum.length).flatMap (fun i =>
    (List.range s.shell_exponents.length).filterMap (fun j =>
      if primLive s i j then
        some { shell_angular_momentum := [s.shell_angular_momentum.getD i 0],
               shell_exponents := [s.shell_exponents.getD j 0],
               shell_coefficients := [[1]] }
      else none))

/-- Modelled from the spec: the per-element step of
`manip.uncontract_segmented`. -/
def uncontract_segmented_element (shells : List Shell) : List Shell :=
  shells.flatMap uncontract_segmented_shell

/-- Modelled from the spec: `manip.uncontract_segmented`. -/
def uncontract_segmented (b : BasisSet) : BasisSet :=
  mapShells uncontract_segmented_element b

/-- Modelled from the spec: pad one coefficient row of a source shell out
to the merged exponent list, with 0.0 at exponent positions the source
shell did not contain. -/
def padRow (allExps exps row : List ℚ) : List ℚ :=
  allExps.map (fun e =>
    match exps.indexOf? e with
    | some i => row.getD i 0
    | none => 0)

/-- Modelled from the spec: `manip.make_general`s merged exponent set for a
group of shells: the distinct exponents across the group, numerically
sorted in descending order (largest first, the conventional presentation
the concrete cases of the spec show). -/
def mergedExponents (g : List Shell) : List ℚ :=
  (firstDedup (g.flatMap Shell.shell_exponents)).insertionSort (· ≥ ·)

/-- Modelled from the spec: merge one group of shells sharing an AM list
into a single shell; groups of size 1 pass through as a structural no-op. -/
def mergeGroup (g : List Shell) : List Shell :=
  match g with
  | [] => []
  | [s] => [s]
  | s :: _ =>
    [{ shell_angular_momentum := s.shell_angular_momentum,
       shell_exponents := mergedExponents g,
       shell_coefficients :=
         g.flatMap (fun sh =>
           sh.shell_coefficients.map (padRow (mergedExponents g) sh.shell_exponents)) }]

/-- Modelled from the spec: the per-element step of `manip.make_general`:
group the shells by their angular-momentum list (in first-occurrence
order) and merge each group. -/
def make_general_element (shells : List Shell) : List Shell :=
  (firstDedup (shells.map Shell.shell_angular_momentum)).flatMap (fun am =>
    mergeGroup (shells.filter (fun s => decide (s.shell_angular_momentum = am))))

/-- Modelled from the spec: `manip.make_general`. -/
def make_general (b : BasisSet) : BasisSet :=
  mapShells make_general_element b

/-- Number of nonzero coefficients in a row. -/
def countNonzero (row : List ℚ) : ℕ :=
  (row.filter (fun c => decide (c ≠ 0))).length

/-- Modelled from the spec: the per-shell step of `manip.optimize_general`:
rows with exactly one nonzero coefficient are extracted into their own
single-primitive shells, appended after the reduced general shell, which
keeps the remaining rows restricted to the exponent positions some
remaining row still references; combined-AM shells pass through.
`keepRows` holds the rows that stay in the reduced general shell. -/
def keepRows (s : Shell) : List (List ℚ) :=
  s.shell_coefficients.filter (fun r => decide (countNonzero r ≠ 1))

/-- The rows of a shell that are functionally single-primitive (exactly one
nonzero coefficient). -/
def extractedRows (s : Shell) : List (List ℚ) :=
  s.shell_coefficients.filter (fun r => decide (countNonzero r = 1))

/-- The exponent positions still referenced (nonzero) by some kept row. -/
def usedPositions (s : Shell) : List ℕ :=
  (List.range s.shell_exponents.length).filter (fun j =>
    (keepRows s).any (fun r => decide (r.getD j 0 ≠ 0)))

/-- Modelled from the spec: the per-shell step of
`manip.optimize_general`: the reduced general shell (when any row is kept)
followed by the extracted single-primitive shells. -/
def optimize_general_shell (s : Shell) : List Shell :=
  (if s.shell_angular_momentum.length ≠ 1 then [s]
  else
    (if (keepRows s).isEmpty then []
     else
       [{ shell_angular_momentum := s.shell_angular_momentum,
          shell_exponents := (usedPositions s).map (fun j => s.shell_exponents.getD j 0),
          shell_coefficients :=
            (keepRows s).map (fun r => (usedPositions s).map (fun j => r.getD j 0)) }]) ++
    (extractedRows s).map (fun r =>
      { shell_angular_momentum := s.shell_angular_momentum,
        shell_exponents := [s.shell_exponents.getD (r.findIdx (fun c => decide (c ≠ 0))) 0],
        shell_coefficients := [[r.getD (r.findIdx (fun c => decide (c ≠ 0))) 0]] }))

/-- Modelled from the spec: the per-element step of
`manip.optimize_general`. -/
def optimize_general_element (shells : List Shell) : List Shell :=
  shells.flatMap optimize_general_shell

/-- Modelled from the spec: `manip.optimize_general`. -/
def optimize_general (b : BasisSet) : BasisSet :=
  mapShells optimize_general_element b

/-! ## api.get_basis (src/basis_set_exchange/api.py) -/

/-- The element keys of a basis set, in mapping order. -/
def elementKeys (b : BasisSet) : List String := b.basis_set_elements.map Prod.fst

/-- The element-filtering loop of `get_basis` (api.py lines 172-178): for
each requested element in turn, raise a KeyError when it is not a key of
the composed basis, otherwise replace the current element mapping with the
original mapping restricted to the full requested list (the assignment
sits inside the loop and always filters the original `bs_elements`). -/
def filterLoop (orig : List (String × ElementBasis)) (allEls : List String) :
    List String → List (String × ElementBasis) → Except String (List (String × ElementBasis))
  | [], cur => Except.ok cur
  | el :: rest, _cur =>
    if orig.any (fun kv => decide (kv.1 = el)) then
      filterLoop orig allEls rest (orig.filter (fun kv => decide (kv.1 ∈ allEls)))
    else Except.error "element not found in basis"

/-- The `if elements is not None` block of `get_basis` (api.py lines
164-178), taking the already-expanded list of element-key strings. -/
def filterBasisElements (b : BasisSet) (els : List String) : Except String BasisSet :=
  match filterLoop b.basis_set_elements els els b.basis_set_elements with
  | Except.error e => Except.error e
  | Except.ok newEls => Except.ok { b with basis_set_elements := newEls }

/-- The transform-flag sequence of `get_basis` (api.py lines 180-189):
optimize_general, then uncontract_general, then uncontract_spdf, then
uncontract_segmented, then make_general, each applied to the previous
result when its flag is set. -/
def applyTransforms (og ug uspdf useg mg : Bool) (b : BasisSet) : BasisSet :=
  let b1 := if og then optimize_general b else b
  let b2 := if ug then uncontract_general b1 else b1
  let b3 := if uspdf then uncontract_spdf b2 else b2
  let b4 := if useg then uncontract_segmented b3 else b3
  if mg then make_general b4 else b4

/-- `misc.transform_basis_name`: lower-case the basis-set name. -/
def transform_basis_name (name : String) : String := name.toLower

/-- Metadata of one basis set: its latest version and the version-to-table
relative-path mapping. -/
structure BasisMeta where
  latest_version : String
  versions : List (String × String)
deriving DecidableEq

/-- Modelled from the spec: the read-only record store seen by `get_basis`
(`compose.py`, `memo.py` and the data directory are not under `src/`);
per the spec composition is a pure read-and-assemble operation, so each
table path maps to the basis set `compose.compose_table_basis` would
build. -/
structure Store where
  metadata : List (String × BasisMeta)
  tables : List (String × BasisSet)
deriving DecidableEq

/-- First-match association lookup (Python `dict[key]` access). -/
def lookupKey {β : Type} (l : List (String × β)) (k : String) : Option β :=
  (l.find? (fun kv => kv.1 == k)).map Prod.snd

/-- Modelled from the spec: `api.get_basis` with the record store threaded
explicitly as state; no code path writes to the store, so the returned
store is the input store. -/
def get_basis_st (st : Store) (name : String) (elements : Option (List String))
    (version : Option String) (og ug uspdf useg mg : Bool) :
    Except String BasisSet × Store :=
  let r : Except String BasisSet :=
    match lookupKey st.metadata (transform_basis_name name) with
    | none => Except.error "basis set does not exist"
    | some meta =>
      match lookupKey meta.versions (version.getD meta.latest_version) with
      | none => Except.error "version does not exist"
      | some relpath =>
        match lookupKey st.tables relpath with
        | none => Except.error "table file not found"
        | some basis =>
          match elements with
          | none => Except.ok (applyTransforms og ug uspdf useg mg basis)
          | some els =>
            match filterBasisElements basis els with
            | Except.error e => Except.error e
            | Except.ok fb => Except.ok (applyTransforms og ug uspdf useg mg fb)
  (r, st)

/-! ## Structural invariants (the Data Model contracts) -/

/-- The three structural invariants of a shell: at least one primitive,
every coefficient row of length `nprim`, and for combined angular momentum
as many rows as AM entries. -/
def validShell (s : Shell) : Prop :=
  1 ≤ s.shell_exponents.length ∧
  (∀ row ∈ s.shell_coefficients, row.length = s.shell_exponents.length) ∧
  (1 < s.shell_angular_momentum.length →
    s.shell_coefficients.length = s.shell_angular_momentum.length)

instance (s : Shell) : Decidable (validShell s) := by
  unfold validShell; infer_instance

/-- The electron shells of an element ([] when the key is absent). -/
def shellList (el : ElementBasis) : List Shell := el.element_electron_shells.getD []

/-- Every shell of every element satisfies the structural invariants. -/
def validBasis (b : BasisSet) : Prop :=
  ∀ kv ∈ b.basis_set_elements, ∀ s ∈ shellList kv.2, validShell s

instance (b : BasisSet) : Decidable (validBasis b) := by
  unfold validBasis; infer_instance

/-- Every coefficient row of the shell has at least one nonzero entry. -/
def shellRowsNonzero (s : Shell) : Prop :=
  ∀ row ∈ s.shell_coefficients, ∃ c ∈ row, c ≠ 0

instance (s : Shell) : Decidable (shellRowsNonzero s) := by
  unfold shellRowsNonzero; infer_instance

/-- Every coefficient row of every shell of the basis set has a nonzero
entry. -/
def basisRowsNonzero (b : BasisSet) : Prop :=
  ∀ kv ∈ b.basis_set_elements, ∀ s ∈ shellList kv.2, shellRowsNonzero s

instance (b : BasisSet) : Decidable (basisRowsNonzero b) := by
  unfold basisRowsNonzero; infer_instance

/-- No two shells of the list share one combined (length > 1)
angular-momentum list. -/
def noDupCombined (shells : List Shell) : Prop :=
  ((shells.filter (fun s => decide (1 < s.shell_angular_momentum.length))).map
    Shell.shell_angular_momentum).Nodup

instance (shells : List Shell) : Decidable (noDupCombined shells) := by
  unfold noDupCombined; infer_instance

/-- No element of the basis set has two shells sharing one combined
angular-momentum list. -/
def basisNoDupCombined (b : BasisSet) : Prop :=
  ∀ kv ∈ b.basis_set_elements, noDupCombined (shellList kv.2)

instance (b : BasisSet) : Decidable (basisNoDupCombined b) := by
  unfold basisNoDupCombined; infer_instance

/-! ## Invariant preservation lemmas -/

lemma filterZero_length_eq (exps row : List ℚ) :
    (filterZero exps row).1.length = (filterZero exps row).2.length := by
  simp [filterZero]

lemma filterZero_fst_ne_nil (exps row : List ℚ) (hlen : row.length = exps.length)
    (h : ∃ c ∈ row, c ≠ 0) : (filterZero exps row).1 ≠ [] := by
  obtain ⟨c, hc, hc0⟩ := h
  have hrow : (exps.zip row).map Prod.snd = row :=
    List.map_snd_zip exps row (le_of_eq hlen)
  rw [← hrow] at hc
  obtain ⟨p, hp, hpc⟩ := List.mem_map.mp hc
  have hmem : p ∈ (exps.zip row).filter (fun q => decide (q.2 ≠ 0)) :=
    List.mem_filter.mpr ⟨hp, by simp [hpc, hc0]⟩
  have hne : ((exps.zip row).filter fun q => decide (q.2 ≠ 0)) ≠ [] :=
    List.ne_nil_of_mem hmem
  simp only [filterZero, ne_eq, List.map_eq_nil_iff]
  exact hne

lemma validShell_of_single (am : ℕ) (e : ℚ) (c : ℚ) :
    validShell { shell_angular_momentum := [am], shell_exponents := [e],
                 shell_coefficients := [[c]] } := by
  refine ⟨by simp, ?_, by simp⟩
  intro row hrow
  simp at hrow
  simp [hrow]

lemma uncontract_general_shell_valid (s : Shell) (hv : validShell s)
    (hnz : shellRowsNonzero s) :
    ∀ t ∈ uncontract_general_shell s, validShell t := by
  intro t ht
  unfold uncontract_general_shell at ht
  by_cases h1 : s.shell_angular_momentum.length ≠ 1
  · rw [if_pos h1] at ht
    simp at ht; subst ht; exact hv
  · rw [if_neg h1] at ht
    push_neg at h1
    by_cases h2 : s.shell_coefficients.length = 1
    · rw [if_pos h2] at ht
      simp at ht; subst ht; exact hv
    · rw [if_neg h2] at ht
      obtain ⟨row, hrow, rfl⟩ := List.mem_map.mp ht
      have hne := filterZero_fst_ne_nil s.shell_exponents row (hv.2.1 row hrow)
        (hnz row hrow)
      refine ⟨List.length_pos.mpr hne, ?_, ?_⟩
      · intro r hr
        simp at hr
        simp [hr, filterZero_length_eq]
      · intro hgt
        simp [h1] at hgt

lemma uncontract_spdf_shell_valid (s : Shell) (hv : validShell s)
    (hnz : shellRowsNonzero s) :
    ∀ t ∈ uncontract_spdf_shell s, validShell t := by
  intro t ht
  unfold uncontract_spdf_shell at ht
  by_cases h1 : s.shell_angular_momentum.length ≤ 1
  · rw [if_pos h1] at ht
    simp at ht; subst ht; exact hv
  · rw [if_neg h1] at ht
    obtain ⟨p, hp, rfl⟩ := List.mem_map.mp ht
    have hrow : p.2 ∈ s.shell_coefficients := (List.of_mem_zip hp).2
    have hne := filterZero_fst_ne_nil s.shell_exponents p.2 (hv.2.1 p.2 hrow)
      (hnz p.2 hrow)
    refine ⟨List.length_pos.mpr hne, ?_, ?_⟩
    · intro r hr
      simp at hr
      simp [hr, filterZero_length_eq]
    · intro hgt
      simp at hgt

lemma uncontract_segmented_shell_shape (s : Shell) :
    ∀ t ∈ uncontract_segmented_shell s, ∃ a e,
      t = { shell_angular_momentum := [a], shell_exponents := [e],
            shell_coefficients := [[1]] } := by
  intro t ht
  unfold uncontract_segmented_shell at ht
  obtain ⟨i, _, hti⟩ := List.mem_flatMap.mp ht
  obtain ⟨j, _, htj⟩ := List.mem_filterMap.mp hti
  by_cases hl : primLive s i j
  · rw [if_pos hl] at htj
    obtain ⟨rfl⟩ := htj
    exact ⟨_, _, rfl⟩
  · rw [if_neg hl] at htj
    cases htj

lemma uncontract_segmented_shell_valid (s : Shell) :
    ∀ t ∈ uncontract_segmented_shell s, validShell t := by
  intro t ht
  obtain ⟨a, e, rfl⟩ := uncontract_segmented_shell_shape s t ht
  exact validShell_of_single a e 1

lemma mergedExponents_mem (g : List Shell) (x : ℚ) :
    x ∈ mergedExponents g ↔ ∃ s ∈ g, x ∈ s.shell_exponents := by
  unfold mergedExponents
  rw [(List.perm_insertionSort _ _).mem_iff, mem_firstDedup, List.mem_flatMap]

lemma mergedExponents_ne_nil (g : List Shell) (s : Shell) (hs : s ∈ g)
    (hlen : 1 ≤ s.shell_exponents.length) : mergedExponents g ≠ [] := by
  obtain ⟨x, hx⟩ := List.exists_mem_of_length_pos hlen
  exact List.ne_nil_of_mem ((mergedExponents_mem g x).mpr ⟨s, hs, hx⟩)

lemma noDupCombined_tail {s : Shell} {rest : List Shell}
    (h : noDupCombined (s :: rest)) : noDupCombined rest := by
  unfold noDupCombined at h ⊢
  exact List.Nodup.sublist
    (List.Sublist.map _ (List.Sublist.filter _ (List.sublist_cons_self s rest))) h

lemma combined_group_small (shells : List Shell) (am : List ℕ)
    (hnd : noDupCombined shells) (ham : 1 < am.length) :
    (shells.filter fun s => decide (s.shell_angular_momentum = am)).length ≤ 1 := by
  induction shells with
  | nil => simp
  | cons s rest ih =>
    have hrest : noDupCombined rest := noDupCombined_tail hnd
    by_cases hs : s.shell_angular_momentum = am
    · rw [List.filter_cons_of_pos (by simp [hs])]
      have hcomb : 1 < s.shell_angular_momentum.length := by rw [hs]; exact ham
      have hnone : (rest.filter fun t => decide (t.shell_angular_momentum = am)) = [] := by
        rw [List.filter_eq_nil_iff]
        intro t htr htam
        have htam' : t.shell_angular_momentum = am := by simpa using htam
        unfold noDupCombined at hnd
        rw [List.filter_cons_of_pos (by simpa using hcomb), List.map_cons,
          List.nodup_cons] at hnd
        refine hnd.1 ?_
        rw [hs]
        exact List.mem_map.mpr
          ⟨t, List.mem_filter.mpr ⟨htr, by simp [htam', ham]⟩, htam'⟩
      rw [hnone]
      simp
    · rw [List.filter_cons_of_neg (by simp [hs])]
      exact ih hrest

lemma mergeGroup_valid_of (g : List Shell) (hv : ∀ s ∈ g, validShell s)
    (hsmall : ∀ s ∈ g, 1 < s.shell_angular_momentum.length → g.length ≤ 1) :
    ∀ t ∈ mergeGroup g, validShell t := by
  intro t ht
  match g, ht with
  | [s], ht =>
    simp only [mergeGroup, List.mem_singleton] at ht
    subst ht
    exact hv t (by simp)
  | s :: s' :: rest, ht =>
    simp only [mergeGroup, List.mem_singleton] at ht
    subst ht
    refine ⟨?_, ?_, ?_⟩
    · have hs : s ∈ s :: s' :: rest := by simp
      exact List.length_pos.mpr
        (mergedExponents_ne_nil _ s hs (hv s hs).1)
    · intro row hrow
      simp only [List.mem_flatMap, List.mem_map] at hrow
      obtain ⟨sh, _, r, _, rfl⟩ := hrow
      simp [padRow]
    · intro hgt
      simp only at hgt
      have hs : s ∈ s :: s' :: rest := by simp
      have := hsmall s hs hgt
      simp at this

lemma make_general_element_valid (shells : List Shell)
    (hv : ∀ s ∈ shells, validShell s) (hnd : noDupCombined shells) :
    ∀ t ∈ make_general_element shells, validShell t := by
  intro t ht
  unfold make_general_element at ht
  obtain ⟨am, _, htg⟩ := List.mem_flatMap.mp ht
  refine mergeGroup_valid_of _ ?_ ?_ t htg
  · intro u hu
    exact hv u (List.mem_filter.mp hu).1
  · intro u hu hcomb
    have huam : u.shell_angular_momentum = am := by
      simpa using (List.mem_filter.mp hu).2
    exact combined_group_small shells am hnd (huam ▸ hcomb)

lemma exists_used_position (s : Shell) (hv : validShell s)
    (r : List ℚ) (hr : r ∈ keepRows s) (hnzr : ∃ c ∈ r, c ≠ 0) :
    usedPositions s ≠ [] := by
  obtain ⟨c, hc, hc0⟩ := hnzr
  obtain ⟨i, hi⟩ := List.mem_iff_get.mp hc
  have hrmem : r ∈ s.shell_coefficients := (List.mem_filter.mp hr).1
  have hrlen : r.length = s.shell_exponents.length := hv.2.1 r hrmem
  have hgetd : r.getD i.1 0 ≠ 0 := by
    rw [List.getD_eq_getElem r 0 i.2]
    rw [← List.get_eq_getElem, hi]
    exact hc0
  refine List.ne_nil_of_mem (a := i.1) ?_
  unfold usedPositions
  refine List.mem_filter.mpr ⟨List.mem_range.mpr (by omega), ?_⟩
  rw [List.any_eq_true]
  exact ⟨r, hr, by simpa using hgetd⟩

lemma optimize_general_shell_valid (s : Shell) (hv : validShell s)
    (hnz : shellRowsNonzero s) :
    ∀ t ∈ optimize_general_shell s, validShell t := by
  intro t ht
  unfold optimize_general_shell at ht
  by_cases h1 : s.shell_angular_momentum.length ≠ 1
  · rw [if_pos h1] at ht
    simp only [List.mem_singleton] at ht
    subst ht; exact hv
  · rw [if_neg h1] at ht
    push_neg at h1
    rcases List.mem_append.mp ht with hgen | hsing
    · by_cases hk : (keepRows s).isEmpty
      · rw [if_pos hk] at hgen
        cases hgen
      · rw [if_neg hk] at hgen
        simp only [List.mem_singleton] at hgen
        subst hgen
        have hkne : keepRows s ≠ [] := by
          intro hknil
          rw [hknil] at hk
          exact hk rfl
        obtain ⟨r0, hr0⟩ := List.exists_mem_of_length_pos (List.length_pos.mpr hkne)
        have hused : usedPositions s ≠ [] :=
          exists_used_position s hv r0 hr0 (hnz r0 (List.mem_filter.mp hr0).1)
        refine ⟨?_, ?_, ?_⟩
        · simpa using List.length_pos.mpr hused
        · intro row hrow
          simp only [List.mem_map] at hrow
          obtain ⟨r, _, rfl⟩ := hrow
          simp
        · intro hgt
          simp only at hgt
          omega
    · simp only [List.mem_map] at hsing
      obtain ⟨r, _, rfl⟩ := hsing
      refine ⟨by simp, ?_, by intro hgt; simp only at hgt; omega⟩
      intro row hrow
      simp only [List.mem_singleton] at hrow
      subst hrow
      simp

lemma validBasis_mapShells (f : List Shell → List Shell) (b : BasisSet)
    (hf : ∀ kv ∈ b.basis_set_elements, ∀ t ∈ f (shellList kv.2), validShell t) :
    validBasis (mapShells f b) := by
  intro kv' hkv' t ht
  unfold mapShells at hkv'
  simp only [List.mem_map] at hkv'
  obtain ⟨kv, hkv, rfl⟩ := hkv'
  rcases hsh : kv.2.element_electron_shells with _ | shells
  · simp [shellList, hsh] at ht
  · have hsl : shellList kv.2 = shells := by simp [shellList, hsh]
    refine hf kv hkv t ?_
    rw [hsl]
    simpa [shellList, hsh] using ht

lemma mapShells_mapShells (f g : List Shell → List Shell) (b : BasisSet) :
    mapShells f (mapShells g b) = mapShells (fun l => f (g l)) b := by
  cases b
  unfold mapShells
  simp only [List.map_map, BasisSet.mk.injEq, true_and]
  apply List.map_congr_left
  intro kv _
  cases kv with
  | mk k el =>
    cases el
    simp [Function.comp, Option.map_map, Function.comp_def]

lemma mapShells_congr (f g : List Shell → List Shell) (b : BasisSet)
    (h : ∀ l, f l = g l) : mapShells f b = mapShells g b := by
  have : f = g := funext h
  rw [this]

/-! ## Frame view: everything a transform must leave untouched -/

/-- The identifying metadata, the element keys, and every element's ECP
blocks and ECP electron count. -/
def frameView (b : BasisSet) :
    String × String × String × String × String × String ×
      List (String × Option (List EcpPotential) × Option ℕ) :=
  (b.basis_set_name, b.basis_set_description, b.basis_set_role, b.basis_set_family,
   b.basis_set_version, b.basis_set_revision_description,
   b.basis_set_elements.map (fun kv =>
     (kv.1, kv.2.element_ecp_potentials, kv.2.element_ecp_electrons)))

lemma frameView_mapShells (f : List Shell → List Shell) (b : BasisSet) :
    frameView (mapShells f b) = frameView b := by
  cases b
  unfold frameView mapShells
  simp only [List.map_map, Prod.mk.injEq, true_and]
  apply List.map_congr_left
  intro kv _
  cases kv with
  | mk k el => cases el; simp [Function.comp]

/-! ## Idempotence of uncontract_segmented -/

lemma uncontract_segmented_shell_atomic (a : ℕ) (e : ℚ) :
    uncontract_segmented_shell
      { shell_angular_momentum := [a], shell_exponents := [e],
        shell_coefficients := [[1]] } =
    [{ shell_angular_momentum := [a], shell_exponents := [e],
       shell_coefficients := [[1]] }] := by
  unfold uncontract_segmented_shell primLive
  norm_num [List.range_succ, List.filterMap_cons]

lemma uncontract_segmented_element_fixed (shells : List Shell)
    (h : ∀ t ∈ shells, ∃ a e,
      t = { shell_angular_momentum := [a], shell_exponents := [e],
            shell_coefficients := [[1]] }) :
    uncontract_segmented_element shells = shells := by
  induction shells with
  | nil => rfl
  | cons s rest ih =>
    obtain ⟨a, e, rfl⟩ := h s (by simp)
    unfold uncontract_segmented_element at ih ⊢
    rw [List.flatMap_cons, uncontract_segmented_shell_atomic,
      ih (fun t ht => h t (List.mem_cons_of_mem _ ht))]
    rfl

lemma uncontract_segmented_element_idem (shells : List Shell) :
    uncontract_segmented_element (uncontract_segmented_element shells) =
      uncontract_segmented_element shells := by
  apply uncontract_segmented_element_fixed
  intro t ht
  obtain ⟨s, _, hts⟩ := List.mem_flatMap.mp ht
  exact uncontract_segmented_shell_shape s t hts

/-! ## Concrete shells from the spec's testable properties -/

/-- The generally-contracted input shell of the spec's concrete cases:
AM=[0], exponents=[10.0, 1.0, 0.3],
coefficients=[[0.5, 0.5, 0.0], [0.0, 0.3, 0.7]]. -/
def genShellEx : Shell :=
  { shell_angular_momentum := [0],
    shell_exponents := [10, 1, mkRat 3 10],
    shell_coefficients := [[mkRat 1 2, mkRat 1 2, 0], [0, mkRat 3 10, mkRat 7 10]] }

/-- First expected output of uncontract_general on `genShellEx`. -/
def genShellOut1 : Shell :=
  { shell_angular_momentum := [0],
    shell_exponents := [10, 1],
    shell_coefficients := [[mkRat 1 2, mkRat 1 2]] }

/-- Second expected output of uncontract_general on `genShellEx`. -/
def genShellOut2 : Shell :=
  { shell_angular_momentum := [0],
    shell_exponents := [1, mkRat 3 10],
    shell_coefficients := [[mkRat 3 10, mkRat 7 10]] }

/-- A two-row shell whose rows reduce to one identical filtered shell
(demonstrates the per-element duplicate removal). -/
def dupRowShell : Shell :=
  { shell_angular_momentum := [0],
    shell_exponents := [2, 1],
    shell_coefficients := [[1, 0], [1, 0]] }

/-- A small demonstration basis set carrying `genShellEx` on carbon. -/
def demoBasis : BasisSet :=
  { basis_set_name := "demo",
    basis_set_description := "demo basis",
    basis_set_role := "orbital",
    basis_set_family := "demo",
    basis_set_version := "1",
    basis_set_revision_description := "initial",
    basis_set_elements :=
      [("6", { element_electron_shells := some [genShellEx],
               element_ecp_potentials := none,
               element_ecp_electrons := none })] }

/-- A structurally valid basis with an all-zero coefficient row (the rows
have length `nprim`, there is one primitive, and the shell has a single
AM, so every validator invariant holds). -/
def zeroRowBasis : BasisSet :=
  { basis_set_name := "zero",
    basis_set_description := "zero-row demo",
    basis_set_role := "orbital",
    basis_set_family := "demo",
    basis_set_version := "1",
    basis_set_revision_description := "initial",
    basis_set_elements :=
      [("1", { element_electron_shells := some
                 [{ shell_angular_momentum := [0],
                    shell_exponents := [1],
                    shell_coefficients := [[0], [0]] }],
               element_ecp_potentials := none,
               element_ecp_electrons := none })] }

/-- One combined-AM (sp) shell, structurally valid. -/
def spShell : Shell :=
  { shell_angular_momentum := [0, 1],
    shell_exponents := [1],
    shell_coefficients := [[1], [1]] }

/-- A structurally valid basis with two shells sharing the combined AM
list [0, 1]. -/
def dupCombinedBasis : BasisSet :=
  { basis_set_name := "dupsp",
    basis_set_description := "duplicate sp demo",
    basis_set_role := "orbital",
    basis_set_family := "demo",
    basis_set_version := "1",
    basis_set_revision_description := "initial",
    basis_set_elements :=
      [("1", { element_electron_shells := some [spShell, spShell],
               element_ecp_potentials := none,
               element_ecp_electrons := none })] }

/-! ## Lemmas about the element-filtering loop of get_basis -/

lemma filterLoop_all_found (orig : List (String × ElementBasis)) (allEls : List String) :
    ∀ (l : List String) (cur : List (String × ElementBasis)),
      (∀ e ∈ l, e ∈ orig.map Prod.fst) →
      filterLoop orig allEls l cur =
        Except.ok (if l.isEmpty then cur
                   else orig.filter (fun kv => decide (kv.1 ∈ allEls))) := by
  intro l
  induction l with
  | nil => intro cur _; rfl
  | cons e rest ih =>
    intro cur hall
    obtain ⟨kv, hkv, hkve⟩ := List.mem_map.mp (hall e (by simp))
    have hany : orig.any (fun kv => decide (kv.1 = e)) = true := by
      rw [List.any_eq_true]
      exact ⟨kv, hkv, by simp [hkve]⟩
    rw [filterLoop, if_pos hany,
      ih _ (fun x hx => hall x (List.mem_cons_of_mem _ hx))]
    cases rest <;> simp

lemma filterLoop_missing (orig : List (String × ElementBasis)) (allEls : List String) :
    ∀ (l : List String) (cur : List (String × ElementBasis)),
      (∃ e ∈ l, e ∉ orig.map Prod.fst) →
      ∃ msg, filterLoop orig allEls l cur = Except.error msg := by
  intro l
  induction l with
  | nil => intro cur h; simp at h
  | cons e rest ih =>
    intro cur h
    by_cases he : orig.any (fun kv => decide (kv.1 = e)) = true
    · rw [filterLoop, if_pos he]
      apply ih
      obtain ⟨x, hx, hxm⟩ := h
      rcases List.mem_cons.mp hx with rfl | hxr
      · exfalso
        apply hxm
        rw [List.any_eq_true] at he
        obtain ⟨kv, hkv, hkve⟩ := he
        exact List.mem_map.mpr ⟨kv, hkv, by simpa using hkve⟩
      · exact ⟨x, hxr, hxm⟩
    · rw [filterLoop, if_neg he]
      exact ⟨_, rfl⟩

/-- An element with no data at all, for small key-only examples. -/
def emptyEl : ElementBasis :=
  { element_electron_shells := none,
    element_ecp_potentials := none,
    element_ecp_electrons := none }

/-- A basis-set table defining exactly the elements 1, 6 and 8. -/
def threeElBasis : BasisSet :=
  { basis_set_name := "three",
    basis_set_description := "three-element demo",
    basis_set_role := "orbital",
    basis_set_family := "demo",
    basis_set_version := "1",
    basis_set_revision_description := "initial",
    basis_set_elements := [("1", emptyEl), ("6", emptyEl), ("8", emptyEl)] }

lemma sum_map_one {α : Type} (l : List α) : (l.map (fun _ => (1 : ℕ))).sum = l.length := by
  induction l with
  | nil => rfl
  | cons x tl ih => simp [ih, Nat.add_comm]

/-! ## The claim theorems -/

/-- C1 (amended): for every basis set and every NON-EMPTY requested element
list whose entries are all keys of the basis, `get_basis` element
filtering succeeds and the resulting element mapping has exactly the
requested keys, each kept entry taken unchanged from the original mapping;
when some requested element is not a key, a KeyError is raised and no
basis set is returned.  (An empty requested list skips the loop entirely
and leaves the mapping unfiltered, which is what forces the non-emptiness
amendment.) -/
theorem get_basis_element_filtering (b : BasisSet) (els : List String) :
    ((els ≠ [] ∧ ∀ e ∈ els, e ∈ elementKeys b) →
      ∃ b', filterBasisElements b els = Except.ok b' ∧
        b'.basis_set_elements =
          b.basis_set_elements.filter (fun kv => decide (kv.1 ∈ els)) ∧
        (∀ k, k ∈ elementKeys b' ↔ k ∈ els) ∧
        (∀ kv ∈ b'.basis_set_elements, kv ∈ b.basis_set_elements)) ∧
    ((∃ e ∈ els, e ∉ elementKeys b) →
      ∃ msg, filterBasisElements b els = Except.error msg) := by
  constructor
  · rintro ⟨hne, hsub⟩
    have hrun := filterLoop_all_found b.basis_set_elements els els
      b.basis_set_elements hsub
    rw [if_neg (by simpa [List.isEmpty_iff] using hne)] at hrun
    unfold filterBasisElements
    rw [hrun]
    refine ⟨_, rfl, rfl, ?_, ?_⟩
    · intro k
      constructor
      · intro hk
        obtain ⟨kv, hkv, rfl⟩ := List.mem_map.mp hk
        have := (List.mem_filter.mp hkv).2
        simpa using this
      · intro hk
        obtain ⟨kv, hkv, hkve⟩ := List.mem_map.mp (hsub k hk)
        refine List.mem_map.mpr ⟨kv, List.mem_filter.mpr ⟨hkv, ?_⟩, hkve⟩
        simp [hkve, hk]
    · intro kv hkv
      exact (List.mem_filter.mp hkv).1
  · intro hmiss
    obtain ⟨msg, hmsg⟩ :=
      filterLoop_missing b.basis_set_elements els els b.basis_set_elements hmiss
    refine ⟨msg, ?_⟩
    unfold filterBasisElements
    rw [hmsg]

/-- C1 counterexample: requesting the empty element subset on a table
defining elements 1, 6 and 8 succeeds and returns all three elements, not
the empty mapping the claim ("exactly the keys in S") demands. -/
theorem get_basis_element_filtering_empty_cex :
    filterBasisElements threeElBasis [] = Except.ok threeElBasis ∧
    elementKeys threeElBasis = ["1", "6", "8"] := ⟨rfl, rfl⟩

/-- C3 (amended): each of the five transforms preserves the three
structural invariants (nprim ≥ 1, every row of length nprim, combined-AM
row count equal to the AM count) for every structurally valid input,
provided additionally that every coefficient row contains at least one
nonzero coefficient and that no element carries two shells sharing one
combined angular-momentum list. -/
theorem manip_transforms_preserve_invariants (b : BasisSet)
    (hv : validBasis b) (hnz : basisRowsNonzero b) (hnd : basisNoDupCombined b) :
    validBasis (uncontract_general b) ∧ validBasis (uncontract_spdf b) ∧
    validBasis (uncontract_segmented b) ∧ validBasis (make_general b) ∧
    validBasis (optimize_general b) := by
  refine ⟨?_, ?_, ?_, ?_, ?_⟩
  · refine validBasis_mapShells _ b (fun kv hkv t ht => ?_)
    obtain ⟨s, hs, hts⟩ := List.mem_flatMap.mp (mem_firstDedup.mp ht)
    exact uncontract_general_shell_valid s (hv kv hkv s hs) (hnz kv hkv s hs) t hts
  · refine validBasis_mapShells _ b (fun kv hkv t ht => ?_)
    obtain ⟨s, hs, hts⟩ := List.mem_flatMap.mp (mem_firstDedup.mp ht)
    exact uncontract_spdf_shell_valid s (hv kv hkv s hs) (hnz kv hkv s hs) t hts
  · refine validBasis_mapShells _ b (fun kv hkv t ht => ?_)
    obtain ⟨s, _, hts⟩ := List.mem_flatMap.mp ht
    exact uncontract_segmented_shell_valid s t hts
  · refine validBasis_mapShells _ b (fun kv hkv t ht => ?_)
    exact make_general_element_valid _ (hv kv hkv) (hnd kv hkv) t ht
  · refine validBasis_mapShells _ b (fun kv hkv t ht => ?_)
    obtain ⟨s, hs, hts⟩ := List.mem_flatMap.mp ht
    exact optimize_general_shell_valid s (hv kv hkv s hs) (hnz kv hkv s hs) t hts

/-- C3 witness: the hypotheses and two of the five preserved conclusions,
discharged on the concrete demonstration basis. -/
theorem manip_transforms_preserve_invariants_witness :
    validBasis demoBasis ∧ basisRowsNonzero demoBasis ∧
    basisNoDupCombined demoBasis ∧
    validBasis (uncontract_general demoBasis) ∧
    validBasis (make_general demoBasis) :=
  ⟨by decide, by decide, by decide,
   (manip_transforms_preserve_invariants demoBasis
     (by decide) (by decide) (by decide)).1,
   (manip_transforms_preserve_invariants demoBasis
     (by decide) (by decide) (by decide)).2.2.2.1⟩

/-- C3 counterexample: the claim fails as stated on structurally valid
inputs.  A valid shell with an all-zero coefficient row makes
uncontract_general emit a shell with zero primitives, and two valid shells
sharing the combined AM list [0,1] make make_general emit a combined shell
whose row count (4) differs from its AM count (2) even though every row is
nonzero. -/
theorem manip_transforms_preserve_invariants_cex :
    validBasis zeroRowBasis ∧ ¬ validBasis (uncontract_general zeroRowBasis) ∧
    validBasis dupCombinedBasis ∧ basisRowsNonzero dupCombinedBasis ∧
    ¬ validBasis (make_general dupCombinedBasis) := by decide

/-- C4: the transform flags of `get_basis` are applied in the fixed order
optimize_general, uncontract_general, uncontract_spdf,
uncontract_segmented, make_general, each to the output of the previous
stage, whatever combination of flags is set. -/
theorem get_basis_transform_order (og ug uspdf useg mg : Bool) (b : BasisSet) :
    applyTransforms og ug uspdf useg mg b =
      (fun x => if mg then make_general x else x)
        ((fun x => if useg then uncontract_segmented x else x)
          ((fun x => if uspdf then uncontract_spdf x else x)
            ((fun x => if ug then uncontract_general x else x)
              ((fun x => if og then optimize_general x else x) b)))) ∧
    applyTransforms true true true true true b =
      make_general (uncontract_segmented (uncontract_spdf
        (uncontract_general (optimize_general b)))) :=
  ⟨rfl, rfl⟩

/-- C5: uncontract_general splits each multi-row single-AM shell into one
single-row shell per coefficient row keeping exactly the nonzero
(exponent, coefficient) pairs, removes exact duplicates within the
element, and passes single-row and combined-AM shells through unchanged;
on the spec's concrete input it yields exactly the two stated shells. -/
theorem uncontract_general_behavior :
    uncontract_general_element [genShellEx] = [genShellOut1, genShellOut2] ∧
    uncontract_general_element [dupRowShell] =
      [{ shell_angular_momentum := [0], shell_exponents := [2],
         shell_coefficients := [[1]] }] ∧
    (∀ s : Shell, s.shell_coefficients.length = 1 →
      uncontract_general_shell s = [s]) ∧
    (∀ s : Shell, 1 < s.shell_angular_momentum.length →
      uncontract_general_shell s = [s]) := by
  refine ⟨by decide, by decide, ?_, ?_⟩
  · intro s h
    unfold uncontract_general_shell
    by_cases h1 : s.shell_angular_momentum.length ≠ 1
    · rw [if_pos h1]
    · rw [if_neg h1, if_pos h]
  · intro s h
    unfold uncontract_general_shell
    rw [if_pos (by omega)]

/-- C5 witness: the pass-through clauses of the theorem applied to the
concrete combined shell and to a concrete single-row shell. -/
theorem uncontract_general_behavior_witness :
    uncontract_general_shell spShell = [spShell] ∧
    uncontract_general_shell genShellOut1 = [genShellOut1] :=
  ⟨uncontract_general_behavior.2.2.2 spShell (by decide),
   uncontract_general_behavior.2.2.1 genShellOut1 (by decide)⟩

/-- C6 (amended): make_general groups an element's shells by their
angular-momentum list and merges each group into one shell whose exponent
sequence is the DESCENDING sorted union of the group's distinct exponents
and whose coefficient rows are the source rows in source order, zero-padded
at exponent positions the source shell did not contain (one row per source
shell when each source shell is single-row); size-1 groups pass through
unchanged; the concrete merge of the two stated shells yields exponents
[10.0, 1.0, 0.3] with rows [0.5, 0.5, 0.0] and [0.0, 0.3, 0.7]. -/
theorem make_general_behavior :
    make_general_element [genShellOut1, genShellOut2] = [genShellEx] ∧
    (∀ s : Shell, mergeGroup [s] = [s]) ∧
    (∀ (s : Shell) (rest : List Shell), rest ≠ [] →
      ∃ m, mergeGroup (s :: rest) = [m] ∧
        m.shell_angular_momentum = s.shell_angular_momentum ∧
        List.Sorted (· ≥ ·) m.shell_exponents ∧
        m.shell_exponents.Nodup ∧
        (∀ x, x ∈ m.shell_exponents ↔ ∃ t ∈ s :: rest, x ∈ t.shell_exponents) ∧
        m.shell_coefficients =
          (s :: rest).flatMap (fun t =>
            t.shell_coefficients.map
              (padRow m.shell_exponents t.shell_exponents)) ∧
        ((∀ t ∈ s :: rest, t.shell_coefficients.length = 1) →
          m.shell_coefficients.length = (s :: rest).length)) := by
  refine ⟨by decide, fun s => rfl, ?_⟩
  intro s rest hne
  match rest, hne with
  | r :: rs, _ =>
    refine ⟨_, rfl, rfl, ?_, ?_, ?_, rfl, ?_⟩
    · exact List.sorted_insertionSort _ _
    · exact ((List.perm_insertionSort _ _).nodup_iff).mpr (nodup_firstDedup _)
    · exact mergedExponents_mem _
    · intro h1
      rw [List.length_flatMap]
      have hc : (s :: r :: rs).map
          (List.length ∘ fun sh => List.map
            (padRow (mergedExponents (s :: r :: rs)) sh.shell_exponents)
            sh.shell_coefficients) =
          (s :: r :: rs).map (fun _ => 1) := by
        apply List.map_congr_left
        intro t ht
        simp [h1 t ht]
      rw [hc]
      exact sum_map_one _

/-- C6 witness: the merge clause of the theorem applied to the concrete
two-shell group of the spec. -/
theorem make_general_behavior_witness :
    ∃ m, mergeGroup [genShellOut1, genShellOut2] = [m] ∧
      m.shell_angular_momentum = genShellOut1.shell_angular_momentum ∧
      List.Sorted (· ≥ ·) m.shell_exponents ∧
      m.shell_exponents.Nodup ∧
      (∀ x, x ∈ m.shell_exponents ↔
        ∃ t ∈ [genShellOut1, genShellOut2], x ∈ t.shell_exponents) ∧
      m.shell_coefficients =
        [genShellOut1, genShellOut2].flatMap (fun t =>
          t.shell_coefficients.map
            (padRow m.shell_exponents t.shell_exponents)) ∧
      ((∀ t ∈ [genShellOut1, genShellOut2], t.shell_coefficients.length = 1) →
        m.shell_coefficients.length = [genShellOut1, genShellOut2].length) :=
  make_general_behavior.2.2 genShellOut1 [genShellOut2] (by decide)

/-- C6 counterexample: on the spec's own concrete case the merged exponent
sequence is [10.0, 1.0, 0.3], which is not ascending-sorted, so the
claim's "ascending sorted union" contradicts its own concrete output. -/
theorem make_general_ascending_cex :
    (make_general_element [genShellOut1, genShellOut2]).map Shell.shell_exponents =
      [[10, 1, mkRat 3 10]] ∧
    ¬ List.Sorted (· ≤ ·) [(10 : ℚ), 1, mkRat 3 10] := by
  exact ⟨by decide, by decide⟩

/-- C7: applying uncontract_segmented twice yields the same result as
applying it once. -/
theorem uncontract_segmented_idempotent (b : BasisSet) :
    uncontract_segmented (uncontract_segmented b) = uncontract_segmented b := by
  unfold uncontract_segmented
  rw [mapShells_mapShells]
  exact mapShells_congr _ _ b (fun l => uncontract_segmented_element_idem l)

/-- C8: each of the five transforms is a pure function returning a new
BasisSet; in its result the identifying metadata, the element keys and
every element's ecp_potentials and ecp_electrons equal those of the
input. -/
theorem manip_transforms_frame (b : BasisSet) :
    frameView (uncontract_general b) = frameView b ∧
    frameView (uncontract_spdf b) = frameView b ∧
    frameView (uncontract_segmented b) = frameView b ∧
    frameView (make_general b) = frameView b ∧
    frameView (optimize_general b) = frameView b :=
  ⟨frameView_mapShells _ b, frameView_mapShells _ b, frameView_mapShells _ b,
   frameView_mapShells _ b, frameView_mapShells _ b⟩

/-- C9: get_basis is a pure read against the record store: it never writes
the store, so an earlier call (element subset or not) leaves a later call
with an identical observation, and two calls with identical arguments
return equal results. -/
theorem get_basis_repeatable (st : Store) (n1 n2 : String)
    (e1 e2 : Option (List String)) (v1 v2 : Option String)
    (f1 f2 f3 f4 f5 g1 g2 g3 g4 g5 : Bool) :
    (get_basis_st st n1 e1 v1 f1 f2 f3 f4 f5).2 = st ∧
    get_basis_st (get_basis_st st n1 e1 v1 f1 f2 f3 f4 f5).2 n2 e2 v2
        g1 g2 g3 g4 g5 =
      get_basis_st st n2 e2 v2 g1 g2 g3 g4 g5 ∧
    get_basis_st (get_basis_st st n1 e1 v1 f1 f2 f3 f4 f5).2 n1 e1 v1
        f1 f2 f3 f4 f5 =
      get_basis_st st n1 e1 v1 f1 f2 f3 f4 f5 :=
  ⟨rfl, rfl, rfl⟩

/-! ## misc.py element-list helpers (src/basis_set_exchange/misc.py), with
the element symbol table of lut.py modelled from the spec.

Python strings are modelled as `List Char`. -/

/-- A Python string as its character list. -/
abbrev Str := List Char

/-- Modelled from the spec: the element symbol table of `lut.py` (not
under `src/`): the standard periodic-table symbols in lower case, indexed
by atomic number minus one. -/
def element_symbols : List Str :=
  ["h", "he", "li", "be", "b", "c", "n", "o", "f", "ne",
   "na", "mg", "al", "si", "p", "s", "cl", "ar", "k", "ca",
   "sc", "ti", "v", "cr", "mn", "fe", "co", "ni", "cu", "zn",
   "ga", "ge", "as", "se", "br", "kr", "rb", "sr", "y", "zr",
   "nb", "mo", "tc", "ru", "rh", "pd", "ag", "cd", "in", "sn",
   "sb", "te", "i", "xe", "cs", "ba", "la", "ce", "pr", "nd",
   "pm", "sm", "eu", "gd", "tb", "dy", "ho", "er", "tm", "yb",
   "lu", "hf", "ta", "w", "re", "os", "ir", "pt", "au", "hg",
   "tl", "pb", "bi", "po", "at", "rn", "fr", "ra", "ac", "th",
   "pa", "u", "np", "pu", "am", "cm", "bk", "cf", "es", "fm",
   "md", "no", "lr", "rf", "db", "sg", "bh", "hs", "mt", "ds",
   "rg", "cn", "nh", "fl", "mc", "lv", "ts", "og"].map String.toList

/-- Capitalize the first character (title case of an element symbol). -/
def capitalizeStr (s : Str) : Str :=
  match s with
  | [] => []
  | c :: rest => c.toUpper :: rest

/-- Modelled from the spec: `lut.element_sym_from_Z` (not under `src/`):
the symbol of an atomic number, normalized to title case on request. -/
def element_sym_from_Z (z : ℕ) (normalize : Bool) : Str :=
  if normalize then capitalizeStr (element_symbols.getD (z - 1) [])
  else element_symbols.getD (z - 1) []

/-- Modelled from the spec: `lut.element_Z_from_sym` (not under `src/`):
case-insensitive symbol lookup. -/
def element_Z_from_sym (s : Str) : Option ℕ :=
  match element_symbols.indexOf? (s.map Char.toLower) with
  | some i => some (i + 1)
  | none => none

/-- Python `str.isdecimal` on ASCII input: nonempty and all digits. -/
def isDecimalStr (s : Str) : Bool := !s.isEmpty && s.all Char.isDigit

/-- Python `int` on a decimal string. -/
def pyInt (s : Str) : ℕ := s.foldl (fun a c => 10 * a + (c.toNat - 48)) 0

/-- `misc._Z_from_str`: a decimal string parses as an integer, anything
else is looked up as an element symbol. -/
def Z_from_str (s : Str) : Option ℕ :=
  if isDecimalStr s then some (pyInt s) else element_Z_from_sym s

/-- Python `str` of a natural number, by repeated division (fuel-based so
that it evaluates by kernel reduction). -/
def natToStrAux : ℕ → ℕ → Str
  | 0, _ => []
  | fuel + 1, n =>
    if n = 0 then [] else natToStrAux fuel (n / 10) ++ [Nat.digitChar (n % 10)]

/-- Python `str` of a natural number (decimal rendering). -/
def natToStr (n : ℕ) : Str :=
  if n = 0 then ['0'] else natToStrAux (n + 1) n

/-- Python `str.split` on a single-character separator. -/
def splitChar (sep : Char) : Str → List Str
  | [] => [[]]
  | c :: rest =>
    match splitChar sep rest with
    | [] => [[]]
    | t :: ts => if c = sep then [] :: t :: ts else (c :: t) :: ts

/-- Python `sep.join` on a single-character separator. -/
def joinSep (sep : Char) : List Str → Str
  | [] => []
  | [p] => p
  | p :: q :: rest => p ++ sep :: joinSep sep (q :: rest)

/-- Python `sorted(set(x))`. -/
def pySortedSet (l : List ℕ) : List ℕ := l.dedup.insertionSort (· ≤ ·)

/-- The inner while-loop of `compact_elements`: starting from a run
`[s..e]`, extend the run while the next entry is exactly `e + 1`,
emitting the finished run and starting a new one otherwise. -/
def rangesLoop (s e : ℕ) : List ℕ → List (ℕ × ℕ)
  | [] => [(s, e)]
  | x :: rest =>
    if x = e + 1 then rangesLoop s x rest
    else (s, e) :: rangesLoop x x rest

/-- The ranges list of `compact_elements` (a pair `(s, e)` stands for the
Python `[s]` when `s = e` and `[s, e]` otherwise). -/
def makeRanges : List ℕ → List (ℕ × ℕ)
  | [] => []
  | x :: rest => rangesLoop x x rest

/-- One entry of the `range_strs` list of `compact_elements`. -/
def rangeStr (r : ℕ × ℕ) : Str :=
  if r.1 = r.2 then element_sym_from_Z r.1 true
  else if r.2 = r.1 + 1 then
    element_sym_from_Z r.1 true ++ ',' :: element_sym_from_Z r.2 true
  else
    element_sym_from_Z r.1 true ++ '-' :: element_sym_from_Z r.2 true

/-- `misc.compact_elements` (none models the Python `return None` on an
empty input list). -/
def compact_elements (l : List ℕ) : Option Str :=
  if l.length = 0 then none
  else some (joinSep ',' ((makeRanges (pySortedSet l)).map rangeStr))

/-- One comma-separated token of `expand_elements`: a `begin-end` range
(a split that does not give exactly two parts models the Python unpacking
error) or a single element. -/
def expandToken (t : Str) : Option (List ℕ) :=
  if ('-') ∈ t then
    match splitChar '-' t with
    | [b, e] =>
      match Z_from_str b, Z_from_str e with
      | some zb, some ze => some (List.range' zb (ze + 1 - zb))
      | _, _ => none
    | _ => none
  else
    match Z_from_str t with
    | some z => some [z]
    | none => none

/-- The `for el in tmp_list` loop of `expand_elements`, extending the
result list token by token. -/
def expandLoop : List Str → Option (List ℕ)
  | [] => some []
  | t :: rest =>
    match expandToken t, expandLoop rest with
    | some v, some vs => some (v ++ vs)
    | _, _ => none

/-- `misc.expand_elements` on a string input, with as_str=False. -/
def expand_elements (s : Str) : Option (List ℕ) :=
  if s.length = 0 then some []
  else expandLoop (splitChar ',' s)

/-- `misc.expand_elements` with as_str=True: the same parse with every
entry rendered as its decimal string. -/
def expand_elements_str (s : Str) : Option (List Str) :=
  (expand_elements s).map (fun l => l.map natToStr)

/-! ## Round-trip lemmas for the element-list helpers -/

lemma splitChar_ne_nil (sep : Char) (l : Str) : splitChar sep l ≠ [] := by
  cases l with
  | nil => simp [splitChar]
  | cons c rest =>
    rw [splitChar]
    cases hsp : splitChar sep rest with
    | nil => simp
    | cons t ts =>
      by_cases hc : c = sep
      · simp [hc]
      · simp [hc]

lemma splitChar_of_not_mem (sep : Char) (l : Str) (h : sep ∉ l) :
    splitChar sep l = [l] := by
  induction l with
  | nil => rfl
  | cons c rest ih =>
    have hc : ¬ c = sep := fun hh => h (hh ▸ List.mem_cons_self c rest)
    rw [splitChar, ih (fun hm => h (List.mem_cons_of_mem _ hm))]
    simp [hc]

lemma splitChar_append (sep : Char) (a b : Str) :
    splitChar sep (a ++ sep :: b) = splitChar sep a ++ splitChar sep b := by
  induction a with
  | nil =>
    cases hsp : splitChar sep b with
    | nil => exact absurd hsp (splitChar_ne_nil sep b)
    | cons t ts => simp [splitChar, hsp]
  | cons c a' ih =>
    cases hsa : splitChar sep a' with
    | nil => exact absurd hsa (splitChar_ne_nil sep a')
    | cons t ts =>
      have ih' : splitChar sep (a' ++ sep :: b) = t :: (ts ++ splitChar sep b) := by
        rw [ih, hsa]
        rfl
      by_cases hc : c = sep
      · simp [splitChar, ih', hsa, hc]
      · simp [splitChar, ih', hsa, hc]

lemma splitChar_joinSep (sep : Char) :
    ∀ parts : List Str, parts ≠ [] →
      splitChar sep (joinSep sep parts) = parts.flatMap (splitChar sep)
  | [], h => absurd rfl h
  | [p], _ => by simp [joinSep]
  | p :: q :: rest, _ => by
    rw [joinSep, splitChar_append,
      splitChar_joinSep sep (q :: rest) (by simp)]
    simp

lemma expandLoop_append (t1 t2 : List Str) (v1 v2 : List ℕ)
    (h1 : expandLoop t1 = some v1) (h2 : expandLoop t2 = some v2) :
    expandLoop (t1 ++ t2) = some (v1 ++ v2) := by
  induction t1 generalizing v1 with
  | nil =>
    rw [expandLoop] at h1
    obtain rfl : v1 = [] := by cases h1; rfl
    simpa using h2
  | cons t ts ih =>
    rw [expandLoop] at h1
    cases het : expandToken t with
    | none => rw [het] at h1; cases h1
    | some v =>
      rw [het] at h1
      cases hets : expandLoop ts with
      | none => rw [hets] at h1; cases h1
      | some vs =>
        rw [hets] at h1
        obtain rfl : v1 = v ++ vs := by cases h1; rfl
        rw [List.cons_append, expandLoop, het, ih vs hets]
        simp

set_option maxRecDepth 10000 in
set_option maxHeartbeats 1000000 in
lemma symbol_facts_range : ∀ z ∈ List.range' 1 118,
    Z_from_str (element_sym_from_Z z true) = some z ∧
    (',' ∉ element_sym_from_Z z true) ∧ ('-' ∉ element_sym_from_Z z true) ∧
    element_sym_from_Z z true ≠ [] := by decide

lemma symbol_facts {z : ℕ} (h1 : 1 ≤ z) (h2 : z ≤ 118) :
    Z_from_str (element_sym_from_Z z true) = some z ∧
    (',' ∉ element_sym_from_Z z true) ∧ ('-' ∉ element_sym_from_Z z true) ∧
    element_sym_from_Z z true ≠ [] :=
  symbol_facts_range z (List.mem_range'_1.mpr ⟨h1, by omega⟩)

lemma expandToken_sym {z : ℕ} (h1 : 1 ≤ z) (h2 : z ≤ 118) :
    expandToken (element_sym_from_Z z true) = some [z] := by
  obtain ⟨hz, _, hdm, _⟩ := symbol_facts h1 h2
  unfold expandToken
  rw [if_neg hdm, hz]

lemma expandLoop_singleton (t : Str) (v : List ℕ) (h : expandToken t = some v) :
    expandLoop [t] = some v := by
  rw [expandLoop, h, expandLoop]
  simp

lemma expandLoop_rangeStr (s e : ℕ) (h1 : 1 ≤ s) (hse : s ≤ e) (h2 : e ≤ 118) :
    expandLoop (splitChar ',' (rangeStr (s, e))) =
      some (List.range' s (e + 1 - s)) := by
  obtain ⟨hzs, hcs, hds, hnes⟩ := symbol_facts h1 (le_trans hse h2)
  obtain ⟨hze, hce, hde, hnee⟩ := symbol_facts (le_trans h1 hse) h2
  by_cases hq : s = e
  · subst hq
    have hrs : rangeStr (s, s) = element_sym_from_Z s true := by
      simp [rangeStr]
    rw [hrs, splitChar_of_not_mem ',' _ hcs,
      expandLoop_singleton _ _ (expandToken_sym h1 h2)]
    simp [List.range'_one, Nat.add_sub_cancel_left]
  · by_cases hq1 : e = s + 1
    · have hrs : rangeStr (s, e) =
          element_sym_from_Z s true ++ ',' :: element_sym_from_Z e true := by
        simp [rangeStr, hq, hq1]
      rw [hrs, splitChar_append, splitChar_of_not_mem ',' _ hcs,
        splitChar_of_not_mem ',' _ hce, List.singleton_append, expandLoop,
        expandToken_sym h1 (le_trans hse h2),
        expandLoop_singleton _ _ (expandToken_sym (le_trans h1 hse) h2)]
      have h2s : e + 1 - s = 2 := by omega
      rw [h2s]
      have hr2 : List.range' s 2 = [s, s + 1] := by
        simp [List.range'_succ, List.range'_one]
      rw [hr2, hq1]
      simp
    · have hrs : rangeStr (s, e) =
          element_sym_from_Z s true ++ '-' :: element_sym_from_Z e true := by
        simp [rangeStr, hq, hq1]
      have hnocomma : ',' ∉ element_sym_from_Z s true ++
          '-' :: element_sym_from_Z e true := by
        intro hm
        rcases List.mem_append.mp hm with hm | hm
        · exact hcs hm
        · rcases List.mem_cons.mp hm with hm | hm
          · cases hm
          · exact hce hm
      have hdash : ('-') ∈ element_sym_from_Z s true ++
          '-' :: element_sym_from_Z e true :=
        List.mem_append_right _ (List.mem_cons_self _ _)
      have htok : expandToken (element_sym_from_Z s true ++
          '-' :: element_sym_from_Z e true) = some (List.range' s (e + 1 - s)) := by
        rw [expandToken, if_pos hdash, splitChar_append,
          splitChar_of_not_mem '-' _ hds, splitChar_of_not_mem '-' _ hde,
          List.singleton_append]
        simp only [hzs, hze]
      rw [hrs, splitChar_of_not_mem ',' _ hnocomma,
        expandLoop_singleton _ _ htok]

lemma expandLoop_ranges : ∀ rl : List (ℕ × ℕ),
    (∀ r ∈ rl, 1 ≤ r.1 ∧ r.1 ≤ r.2 ∧ r.2 ≤ 118) →
    expandLoop (rl.flatMap (fun r => splitChar ',' (rangeStr r))) =
      some (rl.flatMap (fun r => List.range' r.1 (r.2 + 1 - r.1))) := by
  intro rl
  induction rl with
  | nil => intro _; rfl
  | cons r rest ih =>
    intro hb
    obtain ⟨hb1, hb2, hb3⟩ := hb r (by simp)
    rw [List.flatMap_cons, List.flatMap_cons]
    refine expandLoop_append _ _ _ _ ?_ (ih (fun y hy => hb y (List.mem_cons_of_mem _ hy)))
    rcases r with ⟨s, e⟩
    exact expandLoop_rangeStr s e hb1 hb2 hb3

lemma rangesLoop_flatten : ∀ (l : List ℕ) (s e : ℕ), s ≤ e →
    ((rangesLoop s e l).flatMap (fun r => List.range' r.1 (r.2 + 1 - r.1))) =
      List.range' s (e + 1 - s) ++ l := by
  intro l
  induction l with
  | nil =>
    intro s e hse
    simp [rangesLoop]
  | cons x rest ih =>
    intro s e hse
    rw [rangesLoop]
    by_cases hx : x = e + 1
    · rw [if_pos hx, ih s x (by omega)]
      have he1 : x + 1 - s = (e + 1 - s) + 1 := by omega
      rw [he1, List.range'_concat]
      have he2 : s + 1 * (e + 1 - s) = x := by omega
      rw [he2]
      simp
    · rw [if_neg hx, List.flatMap_cons, ih x x (le_refl x)]
      simp [List.range'_one, Nat.add_sub_cancel_left]

lemma rangesLoop_bounds : ∀ (l : List ℕ) (s e : ℕ),
    1 ≤ s → s ≤ e → e ≤ 118 → (∀ x ∈ l, 1 ≤ x ∧ x ≤ 118) →
    ∀ r ∈ rangesLoop s e l, 1 ≤ r.1 ∧ r.1 ≤ r.2 ∧ r.2 ≤ 118 := by
  intro l
  induction l with
  | nil =>
    intro s e hs1 hse he1 _ r hr
    simp only [rangesLoop, List.mem_singleton] at hr
    subst hr
    exact ⟨hs1, hse, he1⟩
  | cons x rest ih =>
    intro s e hs1 hse he1 hl r hr
    rw [rangesLoop] at hr
    by_cases hx : x = e + 1
    · rw [if_pos hx] at hr
      exact ih s x hs1 (by omega) (hl x (by simp)).2
        (fun y hy => hl y (List.mem_cons_of_mem _ hy)) r hr
    · rw [if_neg hx] at hr
      rcases List.mem_cons.mp hr with rfl | hr'
      · exact ⟨hs1, hse, he1⟩
      · exact ih x x (hl x (by simp)).1 (le_refl x) (hl x (by simp)).2
          (fun y hy => hl y (List.mem_cons_of_mem _ hy)) r hr'

lemma pySortedSet_id (l : List ℕ) (h : l.Sorted (· < ·)) : pySortedSet l = l := by
  unfold pySortedSet
  rw [h.nodup.dedup]
  exact List.Sorted.insertionSort_eq (h.imp le_of_lt)

lemma rangeStr_ne_nil (r : ℕ × ℕ) (h1 : 1 ≤ r.1) (h2 : r.1 ≤ r.2)
    (h3 : r.2 ≤ 118) : rangeStr r ≠ [] := by
  have hne := (symbol_facts h1 (le_trans h2 h3)).2.2.2
  unfold rangeStr
  by_cases hq : r.1 = r.2
  · simpa [hq] using (symbol_facts (hq ▸ h1) h3).2.2.2
  · by_cases hq1 : r.2 = r.1 + 1
    · simp only [hq, if_false, hq1, if_pos rfl]
      simp [hne]
    · simp only [hq, if_false, hq1, if_false]
      simp [hne]

lemma joinSep_head_ne_nil (sep : Char) (p : Str) (ps : List Str)
    (hp : p ≠ []) : joinSep sep (p :: ps) ≠ [] := by
  cases ps with
  | nil => simpa [joinSep] using hp
  | cons q rest => simp [joinSep, hp]

/-- C10: for every non-empty strictly increasing list of valid atomic
numbers, expand_elements inverts compact_elements, and the as_str variant
returns the same entries rendered as decimal strings. -/
theorem compact_expand_roundtrip (l : List ℕ) (hne : l ≠ [])
    (hsorted : l.Sorted (· < ·)) (hz : ∀ z ∈ l, 1 ≤ z ∧ z ≤ 118) :
    ∃ s, compact_elements l = some s ∧
      expand_elements s = some l ∧
      expand_elements_str s = some (l.map natToStr) := by
  have hlen : ¬ l.length = 0 := fun h => hne (List.length_eq_zero.mp h)
  have hps := pySortedSet_id l hsorted
  obtain ⟨x, rest, rfl⟩ : ∃ x rest, l = x :: rest := by
    cases l with
    | nil => exact absurd rfl hne
    | cons x rest => exact ⟨x, rest, rfl⟩
  have hbounds : ∀ r ∈ makeRanges (x :: rest),
      1 ≤ r.1 ∧ r.1 ≤ r.2 ∧ r.2 ≤ 118 := by
    unfold makeRanges
    exact rangesLoop_bounds rest x x (hz x (by simp)).1 (le_refl x)
      (hz x (by simp)).2 (fun y hy => hz y (List.mem_cons_of_mem _ hy))
  have hflat : (makeRanges (x :: rest)).flatMap
      (fun r => List.range' r.1 (r.2 + 1 - r.1)) = x :: rest := by
    unfold makeRanges
    rw [rangesLoop_flatten rest x x (le_refl x)]
    simp [List.range'_one, Nat.add_sub_cancel_left]
  have hrlne : makeRanges (x :: rest) ≠ [] := by
    intro h0
    rw [h0] at hflat
    simp at hflat
  obtain ⟨r0, rl0, hrl0⟩ : ∃ r0 rl0, makeRanges (x :: rest) = r0 :: rl0 := by
    cases hmr : makeRanges (x :: rest) with
    | nil => exact absurd hmr hrlne
    | cons r0 rl0 => exact ⟨r0, rl0, rfl⟩
  have hcompact : compact_elements (x :: rest) =
      some (joinSep ',' ((makeRanges (x :: rest)).map rangeStr)) := by
    unfold compact_elements
    rw [if_neg hlen, hps]
  have hr0b := hbounds r0 (by rw [hrl0]; simp)
  have hstrne : joinSep ',' ((makeRanges (x :: rest)).map rangeStr) ≠ [] := by
    rw [hrl0, List.map_cons]
    exact joinSep_head_ne_nil ',' _ _ (rangeStr_ne_nil r0 hr0b.1 hr0b.2.1 hr0b.2.2)
  have hsplit : splitChar ',' (joinSep ',' ((makeRanges (x :: rest)).map rangeStr)) =
      (makeRanges (x :: rest)).flatMap (fun r => splitChar ',' (rangeStr r)) := by
    rw [splitChar_joinSep ',' _ (by simp [hrl0]), List.flatMap_map]
  have hexpand : expand_elements
      (joinSep ',' ((makeRanges (x :: rest)).map rangeStr)) = some (x :: rest) := by
    unfold expand_elements
    rw [if_neg (by simpa [List.length_eq_zero] using hstrne), hsplit,
      expandLoop_ranges _ hbounds, hflat]
  refine ⟨_, hcompact, hexpand, ?_⟩
  unfold expand_elements_str
  rw [hexpand]
  rfl

/-- C10 witness: the round trip discharged on the test suite's concrete
list [1, 2, 3, 11, 23, 24] (which compacts to "H-Li,Na,V,Cr"). -/
theorem compact_expand_roundtrip_witness :
    ∃ s, compact_elements [1, 2, 3, 11, 23, 24] = some s ∧
      expand_elements s = some [1, 2, 3, 11, 23, 24] ∧
      expand_elements_str s = some ([1, 2, 3, 11, 23, 24].map natToStr) :=
  compact_expand_roundtrip [1, 2, 3, 11, 23, 24] (by decide) (by decide) (by decide)

/-- The concrete compact/expand behavior of the test suite: the list
[1, 2, 3, 11, 23, 24] compacts to "H-Li,Na,V,Cr" and expands back. -/
lemma compact_elements_concrete :
    compact_elements [1, 2, 3, 11, 23, 24] = some ("H-Li,Na,V,Cr".toList) ∧
    expand_elements ("H-Li,Na,V,Cr".toList) = some [1, 2, 3, 11, 23, 24] := by
  exact ⟨by decide, by decide⟩

end BSE
